import Mathlib

/-!
Verification development for the phishing-email analysis core (app.py).

The embedding models the text as `List Char`.  The Python regular
expression substitutions of `preprocess_text` are rendered as structural
left-to-right scanners; each definition carries a comment relating it to
the regex it implements.  The analysis route `analyze_email` is modelled
as a total function from the (optional) classifier and the two input
strings to `Except`, mirroring the control flow of the source.
-/

namespace Phish

/-- ASCII fragment of the Python whitespace class (regex backslash-s and
str.split): space, tab, newline, carriage return, vertical tab, form feed. -/
def pySpace (c : Char) : Bool :=
  c = ' ' || c = '\t' || c = '\n' || c = '\r' || c = '\x0b' || c = '\x0c'

/-- Negation of `pySpace`: the regex class backslash-S (non-whitespace). -/
def notSpace (c : Char) : Bool := !(pySpace c)

/-- ASCII letter (the class a-zA-Z of the source regex). -/
def asciiLetter (c : Char) : Bool :=
  ('a' ≤ c && c ≤ 'z') || ('A' ≤ c && c ≤ 'Z')

/-- Characters kept by the substitution re.sub(r'[^a-zA-Z\s]', '', text):
ASCII letters and whitespace. -/
def keepChar (c : Char) : Bool := asciiLetter c || pySpace c

/-- ASCII lower-casing of one character, as Python str.lower acts on the
ASCII range (the inputs relevant to the source are ASCII plus Arabic,
which lower-casing leaves unchanged). -/
def lowerChar (c : Char) : Char :=
  if 'A' ≤ c && c ≤ 'Z' then Char.ofNat (c.toNat + 32) else c

/-- text.lower() on the character list. -/
def lowerList (l : List Char) : List Char := l.map lowerChar

/-- Does the pattern occur verbatim at the head of the text? -/
def subAt : List Char → List Char → Bool
  | [], _ => true
  | _ :: _, [] => false
  | p :: ps, c :: cs => p = c && subAt ps cs

/-- Does some suffix of the text satisfy the predicate?  Used to model
regex search (a regex match may start at any position). -/
def anySuffix (p : List Char → Bool) : List Char → Bool
  | [] => p []
  | c :: cs => p (c :: cs) || anySuffix p cs

/-- Substring search: the pattern occurs somewhere in the text. -/
def hasSub (pat : List Char) (l : List Char) : Bool :=
  anySuffix (fun t => subAt pat t) l

/-- A match of the URL regex (http backslash-S + | www backslash-S + |
https backslash-S +) starts at the head of the text: the literal http
(which subsumes the https alternative) or www, followed by at least one
non-whitespace character.  Such a match always extends to the end of the
maximal non-whitespace run. -/
def urlAt (l : List Char) : Bool :=
  (subAt ['h', 't', 't', 'p'] l &&
    (match l.drop 4 with
     | c :: _ => notSpace c
     | [] => false)) ||
  (subAt ['w', 'w', 'w'] l &&
    (match l.drop 3 with
     | c :: _ => notSpace c
     | [] => false))

/-- A match of the email regex (backslash-S + @ backslash-S +) starts at
the head of the text: within the maximal non-whitespace run there is an
at-sign preceded by at least one run character and followed by at least
one run character.  Such a match always extends to the end of the run
because the trailing backslash-S + is greedy. -/
def emailAt (l : List Char) : Bool :=
  (((l.takeWhile notSpace).drop 1).dropLast).contains '@'

/-- After an opening angle bracket, does the tag regex < .*? > close?  The
dot does not match a newline, so the match exists exactly when the first
closing angle bracket or newline after the opening bracket is a closing
angle bracket. -/
def tagClose (cs : List Char) : Bool :=
  match cs.dropWhile (fun d => !(d = '>' || d = '\n')) with
  | d :: _ => d = '>'
  | [] => false

/-- Scanner for re.sub(r'http\S+|www\S+|https\S+', '', text).  The flag
records whether the scanner is currently deleting a matched run; a match
always extends to the end of its non-whitespace run, so deletion proceeds
until the next whitespace character. -/
def goUrl : Bool → List Char → List Char
  | _, [] => []
  | true, c :: cs => if notSpace c then goUrl true cs else c :: goUrl false cs
  | false, c :: cs =>
    if urlAt (c :: cs) then goUrl true cs else c :: goUrl false cs

/-- Scanner for re.sub(r'\S+@\S+', '', text), with the same run-deletion
flag as the URL scanner. -/
def goEmail : Bool → List Char → List Char
  | _, [] => []
  | true, c :: cs => if notSpace c then goEmail true cs else c :: goEmail false cs
  | false, c :: cs =>
    if emailAt (c :: cs) then goEmail true cs else c :: goEmail false cs

/-- Scanner for re.sub(r'<.*?>', '', text).  On an opening angle bracket
whose tag closes, the scanner deletes up to and including the first
closing angle bracket (the non-greedy match). -/
def goTag : Bool → List Char → List Char
  | _, [] => []
  | true, c :: cs => if c = '>' then goTag false cs else goTag true cs
  | false, c :: cs =>
    if c = '<' && tagClose cs then goTag true cs else c :: goTag false cs

/-- text.split(): maximal runs of non-whitespace characters, in order. -/
def words : List Char → List (List Char)
  | [] => []
  | c :: cs =>
    if pySpace c then words cs
    else
      match cs with
      | [] => [[c]]
      | d :: _ =>
        if pySpace d then [c] :: words cs
        else
          match words cs with
          | [] => [[c]]
          | w :: ws => (c :: w) :: ws

/-- ' '.join(ws). -/
def joinWords : List (List Char) → List Char
  | [] => []
  | w :: ws =>
    match ws with
    | [] => w
    | _ :: _ => w ++ ' ' :: joinWords ws

/-- ' '.join(text.split()): collapse whitespace runs and trim. -/
def normSpace (l : List Char) : List Char := joinWords (words l)

/-- preprocess_text from app.py: lower-case, strip URL-like tokens, strip
email-like tokens, strip tags, keep only ASCII letters and whitespace,
normalise whitespace. -/
def preprocess (l : List Char) : List Char :=
  normSpace (List.filter keepChar (goTag false (goEmail false (goUrl false (lowerList l)))))

/-- Does the URL regex match anywhere in the text? -/
def hasUrl : List Char → Bool
  | [] => false
  | c :: cs => urlAt (c :: cs) || hasUrl cs

/-- A match of the regex click backslash-s + (here|link) starts at the
head of the text: the literal click, at least one whitespace character,
then here or link.  The alternatives both start with a non-whitespace
letter, so the greedy whitespace group cannot trade characters with them. -/
def clickAt (l : List Char) : Bool :=
  subAt ['c', 'l', 'i', 'c', 'k'] l &&
    (let rest := l.drop 5
     !(rest.takeWhile pySpace).isEmpty &&
       (subAt ['h', 'e', 'r', 'e'] (rest.dropWhile pySpace) ||
        subAt ['l', 'i', 'n', 'k'] (rest.dropWhile pySpace)))

/-- A match of the regex http[s]?:// starts at the head of the text. -/
def httpAt (l : List Char) : Bool :=
  subAt "http://".toList l || subAt "https://".toList l

/-- Four-level confidence band (the Arabic labels of the source). -/
inductive Band
  | veryHigh  -- عالية جداً
  | high      -- عالية
  | medium    -- متوسطة
  | low       -- منخفضة
deriving DecidableEq

/-- Which analysis produced the result (the model_used field). -/
inductive ModelUsed
  | mlModel          -- ML Model (Naive Bayes)
  | keywordFallback  -- Keyword-based (Fallback)
deriving DecidableEq

/-- The reason templates of the source, with the numeric payload that the
f-string interpolates.  mlPhishing and mlSafe embed the confidence score;
kwPhishing embeds the keyword count; kwSafe is the fixed no-indicators
message. -/
inductive Reason
  | mlPhishing (score : ℚ)
  | mlSafe (score : ℚ)
  | kwPhishing (count : ℕ)
  | kwSafe
deriving DecidableEq

/-- The error cases of the route handler that reject the request. -/
inductive AnalyzeError
  | invalidInput  -- both subject and body empty: HTTP 400
deriving DecidableEq

/-- The JSON result record of a successful analysis. -/
structure AnalysisResult where
  is_phishing : Bool
  confidence : Band
  reason : Reason
  warning_signs : List String
  model_used : ModelUsed
deriving DecidableEq

/-- Confidence band of the model path (thresholds 0.9, 0.75, 0.6). -/
def mlBand (score : ℚ) : Band :=
  if 9 / 10 ≤ score then .veryHigh
  else if 3 / 4 ≤ score then .high
  else if 3 / 5 ≤ score then .medium
  else .low

/-- Confidence band of the keyword fallback path (count thresholds 3, 1). -/
def fallbackBand (n : ℕ) : Band :=
  if 3 ≤ n then .high else if 1 ≤ n then .medium else .low

/-- The nine phishing keyword phrases of the fallback detector. -/
def keywords : List (List Char) :=
  ["verify account".toList, "suspended account".toList,
   "click here immediately".toList, "confirm your password".toList,
   "update payment".toList, "urgent action".toList,
   "verify your identity".toList, "unusual activity".toList,
   "limited time".toList]

/-- phishing_score: how many of the nine phrases occur in the lower-cased
combined text (each phrase counts at most once). -/
def keywordScore (full : List Char) : ℕ :=
  List.countP (fun k => hasSub k (lowerList full)) keywords

/-- The seven warning-sign messages, in rule-declaration order, the
placeholder used when no rule matches, and the fixed fallback-mode
message. -/
def w1 : String := "طلب التحقق من البيانات الشخصية"

def w2 : String := "استخدام لغة الاستعجال والضغط"

def w3 : String := "طلب النقر على روابط مشبوهة"

def w4 : String := "طلب معلومات حساسة"

def w5 : String := "يحتوي على روابط خارجية"

def w6 : String := "يتعلق بمعلومات الحساب"

def w7 : String := "وعود بجوائز أو مكاسب"

def placeholderMsg : String := "لم يتم اكتشاف علامات تحذير واضحة"

def fallbackMsg : String := "تحليل بسيط باستخدام الكلمات المفتاحية"

/-- Rule 1: verification or update request (Latin matching on the
lower-cased text, Arabic matching on the original text). -/
def rule1 (full lower : List Char) : Bool :=
  hasSub "verify".toList lower || hasSub "confirm".toList lower ||
  hasSub "تأكيد".toList full || hasSub "تحديث".toList full

/-- Rule 2: urgency pressure. -/
def rule2 (full lower : List Char) : Bool :=
  hasSub "urgent".toList lower || hasSub "immediately".toList lower ||
  hasSub "عاجل".toList full || hasSub "فوري".toList full

/-- Rule 3: suspicious link click request (regex on the lower-cased text,
Arabic phrase on the original text). -/
def rule3 (full lower : List Char) : Bool :=
  anySuffix clickAt lower || hasSub "اضغط هنا".toList full

/-- Rule 4: sensitive credential request. -/
def rule4 (full lower : List Char) : Bool :=
  hasSub "password".toList lower ||
  hasSub "كلمة المرور".toList full || hasSub "كلمة السر".toList full

/-- Rule 5: external link presence.  The source searches the ORIGINAL
case text full_email, not text_lower. -/
def rule5 (full : List Char) : Bool := anySuffix httpAt full

/-- Rule 6: account-related content. -/
def rule6 (full lower : List Char) : Bool :=
  hasSub "account".toList lower || hasSub "حساب".toList full

/-- Rule 7: prize or reward lure. -/
def rule7 (full lower : List Char) : Bool :=
  hasSub "prize".toList lower || hasSub "winner".toList lower ||
  hasSub "جائزة".toList full

/-- The warning-sign extractor of the model path: append each matching
rule message in rule order; if none matched, the placeholder. -/
def warningSigns (full : List Char) : List String :=
  let lower := lowerList full
  let ws :=
    (if rule1 full lower then [w1] else []) ++
    (if rule2 full lower then [w2] else []) ++
    (if rule3 full lower then [w3] else []) ++
    (if rule4 full lower then [w4] else []) ++
    (if rule5 full then [w5] else []) ++
    (if rule6 full lower then [w6] else []) ++
    (if rule7 full lower then [w7] else [])
  if ws = [] then [placeholderMsg] else ws

/-- The rule outcomes paired with their messages, in declaration order. -/
def ruleMsgs (full : List Char) : List (Bool × String) :=
  let lower := lowerList full
  [(rule1 full lower, w1), (rule2 full lower, w2), (rule3 full lower, w3),
   (rule4 full lower, w4), (rule5 full, w5), (rule6 full lower, w6),
   (rule7 full lower, w7)]

/-- The messages of the matching rules, in declaration order. -/
def selectedMsgs (full : List Char) : List String :=
  (ruleMsgs full).filterMap (fun p => if p.1 then some p.2 else none)

/-- max of a nonempty list of per-class probabilities (Python max). -/
def maxOf (p : ℚ) (ps : List ℚ) : ℚ := ps.foldl max p

/-- Result record of the fallback (keyword) path. -/
def fallbackResult (full : List Char) : AnalysisResult :=
  let n := keywordScore full
  { is_phishing := decide (2 ≤ n)
    confidence := fallbackBand n
    reason := if 2 ≤ n then .kwPhishing n else .kwSafe
    warning_signs := [fallbackMsg]
    model_used := .keywordFallback }

/-- Result record of the model path, given the predicted class and the
maximum class probability. -/
def mlResult (full : List Char) (pred : ℤ) (score : ℚ) : AnalysisResult :=
  { is_phishing := decide (pred = 1)
    confidence := mlBand score
    reason := if pred = 1 then .mlPhishing score else .mlSafe score
    warning_signs := warningSigns full
    model_used := .mlModel }

/-- The loaded classifier: from the normalized text, either the pair of
model.predict and model.predict_proba outputs, or none when either call
raises an exception. -/
def Classifier : Type := List Char → Option (ℤ × List ℚ)

/-- The analyze route of app.py.  Validation rejects the request when
both subject and body are empty.  The combined text is the f-string
subject-space-body.  With a loaded classifier that returns a prediction
and a nonempty probability list, the model path answers; when no model is
loaded, the classifier raises, or the probability list is empty (Python
max of an empty sequence raises), the keyword fallback answers. -/
def analyze_email (model : Option Classifier) (subject body : List Char) :
    Except AnalyzeError AnalysisResult :=
  if subject = [] ∧ body = [] then .error .invalidInput
  else
    let full := subject ++ ' ' :: body
    let processed := preprocess full
    match model with
    | some clf =>
      match clf processed with
      | some (pred, p :: ps) => .ok (mlResult full pred (maxOf p ps))
      | some (_, []) => .ok (fallbackResult full)
      | none => .ok (fallbackResult full)
    | none => .ok (fallbackResult full)

/-! ### Character-level lemmas -/

theorem char_le_toNat {a b : Char} (h : a ≤ b) : a.toNat ≤ b.toNat := by
  rw [Char.le_def, UInt32.le_def] at h
  exact h

theorem toNat_lowerChar_upper (c : Char) (h : ('A' ≤ c && c ≤ 'Z') = true) :
    (lowerChar c).toNat = c.toNat + 32 := by
  simp only [Bool.and_eq_true, decide_eq_true_eq] at h
  have h1 : 65 ≤ c.toNat := char_le_toNat h.1
  have h2 : c.toNat ≤ 90 := char_le_toNat h.2
  unfold lowerChar
  rw [if_pos (by simp [decide_eq_true_eq, h.1, h.2])]
  unfold Char.ofNat
  have hv : Nat.isValidChar (c.toNat + 32) := Or.inl (by omega)
  rw [dif_pos hv]
  unfold Char.toNat Char.ofNatAux
  simp [UInt32.toNat, BitVec.toNat_ofNatLt]

theorem lowerChar_not_upper (c : Char) :
    ('A' ≤ lowerChar c && lowerChar c ≤ 'Z') = false := by
  by_cases h : ('A' ≤ c && c ≤ 'Z') = true
  · have ht := toNat_lowerChar_upper c h
    simp only [Bool.and_eq_true, decide_eq_true_eq] at h
    have h2 : c.toNat ≤ 90 := char_le_toNat h.2
    by_contra hb
    rw [Bool.not_eq_false, Bool.and_eq_true, decide_eq_true_eq,
      decide_eq_true_eq] at hb
    have h3 : (lowerChar c).toNat ≤ 90 := char_le_toNat hb.2
    have h4 : 65 ≤ c.toNat := char_le_toNat h.1
    omega
  · unfold lowerChar
    rw [if_neg h]
    exact Bool.not_eq_true _ ▸ h

theorem lowerChar_idem (c : Char) : lowerChar (lowerChar c) = lowerChar c := by
  conv_lhs => rw [lowerChar]
  rw [lowerChar_not_upper c]
  simp

/-! ### The scanners only delete characters -/

theorem mem_goUrl {c : Char} : ∀ (b : Bool) (l : List Char), c ∈ goUrl b l → c ∈ l
  | _, [] => by simp [goUrl]
  | true, x :: xs => by
    simp only [goUrl]
    split
    · exact fun h => List.mem_cons_of_mem x (mem_goUrl true xs h)
    · intro h
      rcases List.mem_cons.1 h with h | h
      · exact h ▸ List.mem_cons_self x xs
      · exact List.mem_cons_of_mem x (mem_goUrl false xs h)
  | false, x :: xs => by
    simp only [goUrl]
    split
    · exact fun h => List.mem_cons_of_mem x (mem_goUrl true xs h)
    · intro h
      rcases List.mem_cons.1 h with h | h
      · exact h ▸ List.mem_cons_self x xs
      · exact List.mem_cons_of_mem x (mem_goUrl false xs h)

theorem mem_goEmail {c : Char} : ∀ (b : Bool) (l : List Char), c ∈ goEmail b l → c ∈ l
  | _, [] => by simp [goEmail]
  | true, x :: xs => by
    simp only [goEmail]
    split
    · exact fun h => List.mem_cons_of_mem x (mem_goEmail true xs h)
    · intro h
      rcases List.mem_cons.1 h with h | h
      · exact h ▸ List.mem_cons_self x xs
      · exact List.mem_cons_of_mem x (mem_goEmail false xs h)
  | false, x :: xs => by
    simp only [goEmail]
    split
    · exact fun h => List.mem_cons_of_mem x (mem_goEmail true xs h)
    · intro h
      rcases List.mem_cons.1 h with h | h
      · exact h ▸ List.mem_cons_self x xs
      · exact List.mem_cons_of_mem x (mem_goEmail false xs h)

theorem mem_goTag {c : Char} : ∀ (b : Bool) (l : List Char), c ∈ goTag b l → c ∈ l
  | _, [] => by simp [goTag]
  | true, x :: xs => by
    simp only [goTag]
    split
    · exact fun h => List.mem_cons_of_mem x (mem_goTag false xs h)
    · exact fun h => List.mem_cons_of_mem x (mem_goTag true xs h)
  | false, x :: xs => by
    simp only [goTag]
    split
    · exact fun h => List.mem_cons_of_mem x (mem_goTag true xs h)
    · intro h
      rcases List.mem_cons.1 h with h | h
      · exact h ▸ List.mem_cons_self x xs
      · exact List.mem_cons_of_mem x (mem_goTag false xs h)

/-! ### Identity of the scanners on clean text -/

theorem goUrl_eq_self {l : List Char} (h : hasUrl l = false) : goUrl false l = l := by
  induction l with
  | nil => rfl
  | cons c cs ih =>
    simp only [hasUrl, Bool.or_eq_false_iff] at h
    simp only [goUrl]
    rw [if_neg (by simp [h.1])]
    exact congrArg (c :: ·) (ih h.2)

theorem emailAt_mem {l : List Char} (h : emailAt l = true) : '@' ∈ l := by
  unfold emailAt at h
  have h1 : '@' ∈ ((l.takeWhile notSpace).drop 1).dropLast := by
    simpa using h
  exact (List.takeWhile_sublist notSpace).subset
    (List.drop_subset 1 _ ((List.dropLast_sublist _).subset h1))

theorem goEmail_eq_self {l : List Char} (h : '@' ∉ l) : goEmail false l = l := by
  induction l with
  | nil => rfl
  | cons c cs ih =>
    have hn : emailAt (c :: cs) = false := by
      by_contra hb
      exact h (emailAt_mem (Bool.not_eq_false _ ▸ hb))
    simp only [goEmail]
    rw [if_neg (by simp [hn])]
    exact congrArg (c :: ·) (ih fun hm => h (List.mem_cons_of_mem c hm))

theorem goTag_eq_self {l : List Char} (h : '<' ∉ l) : goTag false l = l := by
  induction l with
  | nil => rfl
  | cons c cs ih =>
    have hn : (c = '<' && tagClose cs) = false := by
      by_cases hc : c = '<'
      · exact absurd (hc ▸ List.mem_cons_self c cs) h
      · simp [hc]
    simp only [goTag]
    rw [if_neg (by simp [hn])]
    exact congrArg (c :: ·) (ih fun hm => h (List.mem_cons_of_mem c hm))

/-! ### Word splitting and joining -/

theorem words_cons (c : Char) (cs : List Char) :
    words (c :: cs) =
      if pySpace c then words cs
      else
        match cs with
        | [] => [[c]]
        | d :: _ =>
          if pySpace d then [c] :: words cs
          else
            match words cs with
            | [] => [[c]]
            | w :: ws => (c :: w) :: ws := by
  rw [words.eq_def]

theorem joinWords_cons (w : List Char) (ws : List (List Char)) :
    joinWords (w :: ws) =
      match ws with
      | [] => w
      | _ :: _ => w ++ ' ' :: joinWords ws := by
  rw [joinWords.eq_def]

theorem words_props : ∀ l : List Char, ∀ w ∈ words l,
    w ≠ [] ∧ ∀ c ∈ w, pySpace c = false
  | [] => by simp [words]
  | c :: cs => by
    intro w hw
    rw [words_cons] at hw
    by_cases hc : pySpace c = true
    · rw [if_pos hc] at hw
      exact words_props cs w hw
    · rw [if_neg hc] at hw
      rw [Bool.not_eq_true] at hc
      match cs, hw with
      | [], hw =>
        dsimp only at hw
        rw [List.mem_singleton] at hw
        subst hw
        exact ⟨by simp, by simpa using hc⟩
      | d :: cs', hw =>
        dsimp only at hw
        by_cases hd : pySpace d = true
        · rw [if_pos hd] at hw
          rcases List.mem_cons.1 hw with h | h
          · subst h
            exact ⟨by simp, by simpa using hc⟩
          · exact words_props (d :: cs') w h
        · rw [if_neg hd] at hw
          rcases hww : words (d :: cs') with _ | ⟨v, vs⟩
          · rw [hww, List.mem_singleton] at hw
            subst hw
            exact ⟨by simp, by simpa using hc⟩
          · rw [hww] at hw
            rcases List.mem_cons.1 hw with h | h
            · subst h
              have hv := words_props (d :: cs') v (hww ▸ List.mem_cons_self v vs)
              refine ⟨by simp, ?_⟩
              intro x hx
              rcases List.mem_cons.1 hx with h | h
              · exact h ▸ hc
              · exact hv.2 x h
            · exact words_props (d :: cs') w (hww ▸ List.mem_cons_of_mem v h)

theorem mem_of_mem_words : ∀ l : List Char, ∀ w ∈ words l, ∀ c ∈ w, c ∈ l
  | [] => by simp [words]
  | c :: cs => by
    intro w hw x hx
    rw [words_cons] at hw
    by_cases hc : pySpace c = true
    · rw [if_pos hc] at hw
      exact List.mem_cons_of_mem c (mem_of_mem_words cs w hw x hx)
    · rw [if_neg hc] at hw
      match cs, hw with
      | [], hw =>
        dsimp only at hw
        rw [List.mem_singleton] at hw
        subst hw
        simpa using hx
      | d :: cs', hw =>
        dsimp only at hw
        by_cases hd : pySpace d = true
        · rw [if_pos hd] at hw
          rcases List.mem_cons.1 hw with h | h
          · subst h
            rw [List.mem_singleton] at hx
            exact hx ▸ List.mem_cons_self x _
          · exact List.mem_cons_of_mem c (mem_of_mem_words (d :: cs') w h x hx)
        · rw [if_neg hd] at hw
          rcases hww : words (d :: cs') with _ | ⟨v, vs⟩
          · rw [hww, List.mem_singleton] at hw
            subst hw
            rw [List.mem_singleton] at hx
            exact hx ▸ List.mem_cons_self x _
          · rw [hww] at hw
            rcases List.mem_cons.1 hw with h | h
            · subst h
              rcases List.mem_cons.1 hx with h | h
              · exact h ▸ List.mem_cons_self x _
              · exact List.mem_cons_of_mem c
                  (mem_of_mem_words (d :: cs') v (hww ▸ List.mem_cons_self v vs) x h)
            · exact List.mem_cons_of_mem c
                (mem_of_mem_words (d :: cs') w (hww ▸ List.mem_cons_of_mem v h) x hx)

theorem words_cons_word : ∀ (w : List Char) (c : Char), pySpace c = false →
    (∀ x ∈ w, pySpace x = false) → words (c :: w) = [c :: w]
  | [], c, hc, _ => by simp [words, hc]
  | d :: w', c, hc, hw => by
    have hd : pySpace d = false := hw d (List.mem_cons_self d w')
    have ih := words_cons_word w' d hd fun x hx => hw x (List.mem_cons_of_mem d hx)
    rw [words_cons, if_neg (by simp [hc])]
    dsimp only
    rw [if_neg (by simp [hd]), ih]

theorem words_word_space : ∀ (w : List Char) (c : Char) (t : List Char),
    pySpace c = false → (∀ x ∈ w, pySpace x = false) →
    words ((c :: w) ++ ' ' :: t) = (c :: w) :: words t
  | [], c, t, hc, _ => by
    rw [List.singleton_append, words_cons, if_neg (by simp [hc])]
    dsimp only
    rw [if_pos (by decide), words_cons, if_pos (by decide)]
  | d :: w', c, t, hc, hw => by
    have hd : pySpace d = false := hw d (List.mem_cons_self d w')
    have ih := words_word_space w' d t hd fun x hx => hw x (List.mem_cons_of_mem d hx)
    rw [List.cons_append, words_cons, if_neg (by simp [hc])]
    rw [List.cons_append]
    dsimp only
    rw [if_neg (by simp [hd]), ← List.cons_append, ih]

theorem words_joinWords : ∀ ws : List (List Char),
    (∀ w ∈ ws, w ≠ [] ∧ ∀ c ∈ w, pySpace c = false) →
    words (joinWords ws) = ws
  | [], _ => by simp [joinWords, words]
  | [w], h => by
    obtain ⟨hne, hch⟩ := h w (List.mem_singleton.2 rfl)
    match w, hne with
    | c :: w', _ =>
      rw [joinWords_cons]
      exact words_cons_word w' c (hch c (List.mem_cons_self c w'))
        fun x hx => hch x (List.mem_cons_of_mem c hx)
  | w :: v :: ws, h => by
    obtain ⟨hne, hch⟩ := h w (List.mem_cons_self w _)
    have ih := words_joinWords (v :: ws) fun u hu => h u (List.mem_cons_of_mem w hu)
    match w, hne with
    | c :: w', _ =>
      rw [joinWords_cons]
      dsimp only
      rw [words_word_space w' c (joinWords (v :: ws))
        (hch c (List.mem_cons_self c w'))
        (fun x hx => hch x (List.mem_cons_of_mem c hx)), ih]

theorem normSpace_idem (l : List Char) : normSpace (normSpace l) = normSpace l := by
  unfold normSpace
  rw [words_joinWords (words l) (words_props l)]

theorem mem_joinWords : ∀ (ws : List (List Char)) (c : Char), c ∈ joinWords ws →
    c = ' ' ∨ ∃ w ∈ ws, c ∈ w
  | [], c => by simp [joinWords]
  | [w], c => by
    rw [joinWords_cons]
    exact fun h => Or.inr ⟨w, List.mem_cons_self w [], h⟩
  | w :: v :: ws', c => by
    rw [joinWords_cons]
    dsimp only
    intro h
    rcases List.mem_append.1 h with h | h
    · exact Or.inr ⟨w, List.mem_cons_self w _, h⟩
    · rcases List.mem_cons.1 h with h | h
      · exact Or.inl h
      · rcases mem_joinWords (v :: ws') c h with h | ⟨u, hu, hc⟩
        · exact Or.inl h
        · exact Or.inr ⟨u, List.mem_cons_of_mem w hu, hc⟩

theorem mem_normSpace {c : Char} {l : List Char} (h : c ∈ normSpace l) :
    c = ' ' ∨ c ∈ l := by
  rcases mem_joinWords (words l) c h with h | ⟨w, hw, hc⟩
  · exact Or.inl h
  · exact Or.inr (mem_of_mem_words l w hw c hc)

/-! ### Characters of the normalizer output -/

theorem mem_preprocess {c : Char} {s : List Char} (h : c ∈ preprocess s) :
    c = ' ' ∨ (keepChar c = true ∧ ∃ c₀, c = lowerChar c₀) := by
  unfold preprocess at h
  rcases mem_normSpace h with h | h
  · exact Or.inl h
  · rcases List.mem_filter.1 h with ⟨h1, h2⟩
    have h3 := mem_goUrl false (lowerList s)
      (mem_goEmail false _ (mem_goTag false _ h1))
    rcases List.mem_map.1 h3 with ⟨c₀, _, hc⟩
    exact Or.inr ⟨h2, c₀, hc.symm⟩

theorem lowerList_preprocess (s : List Char) :
    lowerList (preprocess s) = preprocess s := by
  unfold lowerList
  have hfix : ∀ c ∈ preprocess s, lowerChar c = id c := by
    intro c hc
    rcases mem_preprocess hc with h | ⟨_, c₀, hc0⟩
    · subst h
      decide
    · subst hc0
      exact lowerChar_idem c₀
  rw [List.map_congr_left hfix, List.map_id]

theorem at_not_mem_preprocess (s : List Char) : '@' ∉ preprocess s := by
  intro h
  rcases mem_preprocess h with h | ⟨hk, _⟩
  · exact absurd h (by decide)
  · exact absurd hk (by decide)

theorem lt_not_mem_preprocess (s : List Char) : '<' ∉ preprocess s := by
  intro h
  rcases mem_preprocess h with h | ⟨hk, _⟩
  · exact absurd h (by decide)
  · exact absurd hk (by decide)

theorem keepChar_preprocess (s : List Char) :
    ∀ c ∈ preprocess s, keepChar c = true := by
  intro c hc
  rcases mem_preprocess hc with h | ⟨hk, _⟩
  · subst h
    decide
  · exact hk

theorem normSpace_preprocess (s : List Char) :
    normSpace (preprocess s) = preprocess s := by
  unfold preprocess
  exact normSpace_idem _

/-! ### Claim C1: idempotence of the normalizer -/

/-- C1 counterexample: the Text Normalizer is NOT idempotent.  On the
input htt9px the first pass only deletes the digit, producing httpx,
which the URL pass of a second application deletes entirely. -/
theorem preprocess_not_idempotent_on_htt9px :
    preprocess (preprocess "htt9px".toList) ≠ preprocess "htt9px".toList := by
  decide

/-- C1 (amended): the Text Normalizer is idempotent on every input whose
first-pass output contains no occurrence of http or www followed by a
non-whitespace character (that is, inputs where deleting characters did
not create a fresh URL-like token, which is the only failure mode). -/
theorem preprocess_idem_of_no_url (s : List Char)
    (h : hasUrl (preprocess s) = false) :
    preprocess (preprocess s) = preprocess s := by
  conv_lhs => rw [preprocess]
  rw [lowerList_preprocess, goUrl_eq_self h,
    goEmail_eq_self (at_not_mem_preprocess s),
    goTag_eq_self (lt_not_mem_preprocess s),
    List.filter_eq_self.mpr (keepChar_preprocess s)]
  exact normSpace_preprocess s

/-- C1 witness: the amended idempotence theorem applied at a concrete
input. -/
theorem preprocess_idem_of_no_url_witness :
    hasUrl (preprocess "Verify123 now!!".toList) = false ∧
    preprocess (preprocess "Verify123 now!!".toList) =
      preprocess "Verify123 now!!".toList :=
  ⟨by decide, preprocess_idem_of_no_url "Verify123 now!!".toList (by decide)⟩

/-! ### Claim C8: concrete normalizer behaviour -/

/-- C8: the normalizer strips digits and punctuation (first example) and
URLs and email addresses (second example) exactly as the spec examples
state. -/
theorem preprocess_spec_examples :
    preprocess "Verify123 now!!".toList = "verify now".toList ∧
    preprocess "go to http://x.com or a@b.com".toList = "go to or".toList :=
  ⟨by decide, by decide⟩

/-! ### Claim C7: input validation -/

/-- C7: the analyze operation fails with the InvalidInput validation
error exactly when both subject and body are empty; in every other case
it returns a result. -/
theorem analyze_invalid_input_iff (m : Option Classifier) (s b : List Char) :
    analyze_email m s b = .error .invalidInput ↔ (s = [] ∧ b = []) := by
  by_cases h : s = [] ∧ b = []
  · simp [analyze_email, h]
  · rcases m with _ | clf
    · simp [analyze_email, h]
    · rcases hc : clf (preprocess (s ++ ' ' :: b)) with _ | ⟨pred, _ | ⟨p, ps⟩⟩ <;>
        simp [analyze_email, h, hc]

/-! ### Keyword heuristic lemmas -/

theorem subAt_append {pat l s : List Char} (h : subAt pat l = true) :
    subAt pat (l ++ s) = true := by
  induction pat generalizing l with
  | nil => rfl
  | cons p ps ih =>
    match l with
    | [] => exact absurd h (by simp [subAt])
    | c :: cs =>
      simp only [subAt, Bool.and_eq_true] at h
      simp only [List.cons_append, subAt, Bool.and_eq_true]
      exact ⟨h.1, ih h.2⟩

theorem hasSub_nil_pat (l : List Char) : hasSub [] l = true := by
  cases l <;> simp [hasSub, anySuffix, subAt]

theorem hasSub_append {pat t s : List Char} (h : hasSub pat t = true) :
    hasSub pat (t ++ s) = true := by
  induction t with
  | nil =>
    match pat, h with
    | [], _ => exact hasSub_nil_pat s
    | p :: ps, h => exact absurd h (by simp [hasSub, anySuffix, subAt])
  | cons c cs ih =>
    simp only [hasSub, anySuffix, Bool.or_eq_true] at h
    simp only [List.cons_append, hasSub, anySuffix, Bool.or_eq_true]
    rcases h with h | h
    · exact Or.inl (subAt_append h)
    · exact Or.inr (ih h)

theorem keywordScore_mono (t s : List Char) :
    keywordScore t ≤ keywordScore (t ++ s) := by
  unfold keywordScore
  apply List.countP_mono_left
  intro k _ hk
  have : lowerList (t ++ s) = lowerList t ++ lowerList s := List.map_append ..
  rw [this]
  exact hasSub_append hk

/-! ### Claim C3: keyword heuristic contract -/

/-- C3: the keyword count is the number of the 9 fixed phrases occurring
as substrings of the lower-cased text (each at most once, so the count is
at most 9); is_phishing holds iff the count is at least 2; the band is
high iff at least 3, medium iff 1 or 2, low iff 0; and the fallback band
is never very-high. -/
theorem keyword_heuristic_contract (full : List Char) :
    keywords.length = 9 ∧
    keywordScore full ≤ 9 ∧
    keywordScore full =
      (keywords.filter (fun k => hasSub k (lowerList full))).length ∧
    ((fallbackResult full).is_phishing = true ↔ 2 ≤ keywordScore full) ∧
    ((fallbackResult full).confidence = Band.high ↔ 3 ≤ keywordScore full) ∧
    ((fallbackResult full).confidence = Band.medium ↔
      (1 ≤ keywordScore full ∧ keywordScore full ≤ 2)) ∧
    ((fallbackResult full).confidence = Band.low ↔ keywordScore full = 0) ∧
    (fallbackResult full).confidence ≠ Band.veryHigh := by
  refine ⟨rfl, ?_, List.countP_eq_length_filter _ _, ?_, ?_, ?_, ?_, ?_⟩
  · have h := List.countP_le_length (fun k => hasSub k (lowerList full))
      (l := keywords)
    simpa [keywordScore, keywords] using h
  · simp [fallbackResult]
  · simp only [fallbackResult, fallbackBand]
    split_ifs <;> simp_all
  · simp only [fallbackResult, fallbackBand]
    split_ifs <;> simp_all <;> omega
  · simp only [fallbackResult, fallbackBand]
    split_ifs <;> simp_all <;> omega
  · simp only [fallbackResult, fallbackBand]
    split_ifs <;> simp_all

/-! ### Claim C9: monotonicity of the heuristic under text extension -/

/-- C9: extending the text never decreases the keyword count, and the
is_phishing verdict of the fallback analysis is monotone in the Bool
order (once true it stays true under any extension). -/
theorem keyword_heuristic_monotone (t s : List Char) :
    keywordScore t ≤ keywordScore (t ++ s) ∧
    (fallbackResult t).is_phishing ≤ (fallbackResult (t ++ s)).is_phishing := by
  refine ⟨keywordScore_mono t s, ?_⟩
  simp only [fallbackResult]
  by_cases h : 2 ≤ keywordScore t
  · have h2 : 2 ≤ keywordScore (t ++ s) := le_trans h (keywordScore_mono t s)
    simp [h, h2]
  · simp [h]

/-! ### Warning-sign extractor lemmas -/

theorem ite_some_eq_none (b : Bool) (x : String) :
    ((if b = true then some x else none) = none) ↔ b = false := by
  cases b <;> simp

theorem ite_some_eq_some (b : Bool) (x y : String) :
    ((if b = true then some x else none) = some y) ↔ (b = true ∧ x = y) := by
  cases b <;> simp

theorem warningSigns_eq_selected (full : List Char) :
    warningSigns full =
      if selectedMsgs full = [] then [placeholderMsg] else selectedMsgs full := by
  simp only [warningSigns, selectedMsgs, ruleMsgs]
  cases rule1 full (lowerList full) <;> cases rule2 full (lowerList full) <;>
    cases rule3 full (lowerList full) <;> cases rule4 full (lowerList full) <;>
    cases rule5 full <;> cases rule6 full (lowerList full) <;>
    cases rule7 full (lowerList full) <;> simp [List.filterMap_cons]

theorem selectedMsgs_nil_iff (full : List Char) :
    selectedMsgs full = [] ↔
      (rule1 full (lowerList full) = false ∧ rule2 full (lowerList full) = false ∧
       rule3 full (lowerList full) = false ∧ rule4 full (lowerList full) = false ∧
       rule5 full = false ∧ rule6 full (lowerList full) = false ∧
       rule7 full (lowerList full) = false) := by
  simp [selectedMsgs, ruleMsgs, List.filterMap_eq_nil_iff, List.forall_mem_cons,
    ite_some_eq_none]

theorem mem_selectedMsgs {x : String} {full : List Char} (h : x ∈ selectedMsgs full) :
    x = w1 ∨ x = w2 ∨ x = w3 ∨ x = w4 ∨ x = w5 ∨ x = w6 ∨ x = w7 := by
  simp only [selectedMsgs, ruleMsgs, List.mem_filterMap, List.mem_cons,
    List.not_mem_nil, or_false] at h
  rcases h with ⟨⟨b, y⟩, hmem, hf⟩
  rw [ite_some_eq_some] at hf
  obtain ⟨hb, hxy⟩ := hf
  subst hxy
  rcases hmem with h | h | h | h | h | h | h <;>
    · rw [Prod.mk.injEq] at h
      rcases h with ⟨h1, h2⟩
      subst h2
      tauto

theorem warningSigns_ne_nil (full : List Char) : warningSigns full ≠ [] := by
  rw [warningSigns_eq_selected]
  split
  · simp
  · assumption

theorem placeholder_not_mem_selected (full : List Char) :
    placeholderMsg ∉ selectedMsgs full := by
  intro h
  rcases mem_selectedMsgs h with h | h | h | h | h | h | h <;>
    exact absurd h (by decide)

theorem fallbackMsg_not_mem_warningSigns (full : List Char) :
    fallbackMsg ∉ warningSigns full := by
  rw [warningSigns_eq_selected]
  split
  · simp only [List.mem_singleton]
    decide
  · intro h
    rcases mem_selectedMsgs h with h | h | h | h | h | h | h <;>
      exact absurd h (by decide)

theorem w5_mem_warningSigns_iff (full : List Char) :
    w5 ∈ warningSigns full ↔ rule5 full = true := by
  rw [warningSigns_eq_selected]
  by_cases hsel : selectedMsgs full = []
  · rw [if_pos hsel]
    simp only [List.mem_singleton]
    constructor
    · intro h
      exact absurd h (by decide)
    · intro h5
      have hall := (selectedMsgs_nil_iff full).1 hsel
      rw [hall.2.2.2.2.1] at h5
      cases h5
  · rw [if_neg hsel]
    constructor
    · intro h
      simp only [selectedMsgs, ruleMsgs, List.mem_filterMap, List.mem_cons,
        List.not_mem_nil, or_false] at h
      rcases h with ⟨⟨b, y⟩, hmem, hf⟩
      rw [ite_some_eq_some] at hf
      obtain ⟨hb, hxy⟩ := hf
      rcases hmem with h | h | h | h | h | h | h <;> rw [Prod.mk.injEq] at h
      · exact absurd (h.2.symm.trans hxy) (by decide)
      · exact absurd (h.2.symm.trans hxy) (by decide)
      · exact absurd (h.2.symm.trans hxy) (by decide)
      · exact absurd (h.2.symm.trans hxy) (by decide)
      · exact h.1.symm.trans hb
      · exact absurd (h.2.symm.trans hxy) (by decide)
      · exact absurd (h.2.symm.trans hxy) (by decide)
    · intro h5
      simp only [selectedMsgs, ruleMsgs, List.mem_filterMap]
      refine ⟨(rule5 full, w5), by simp, ?_⟩
      rw [ite_some_eq_some]
      exact ⟨h5, rfl⟩

/-! ### Claim C5: warning-sign extractor invariants -/

/-- C5: the extractor output equals the rule-order selection of the
matching rule messages (each emitted exactly once, in declaration order),
with the placeholder exactly when no rule matches; consequently the
output is never empty. -/
theorem warning_extractor_spec (full : List Char) :
    warningSigns full =
      (if selectedMsgs full = [] then [placeholderMsg] else selectedMsgs full) ∧
    (warningSigns full = [placeholderMsg] ↔
      (rule1 full (lowerList full) = false ∧ rule2 full (lowerList full) = false ∧
       rule3 full (lowerList full) = false ∧ rule4 full (lowerList full) = false ∧
       rule5 full = false ∧ rule6 full (lowerList full) = false ∧
       rule7 full (lowerList full) = false)) ∧
    warningSigns full ≠ [] := by
  refine ⟨warningSigns_eq_selected full, ?_, warningSigns_ne_nil full⟩
  rw [warningSigns_eq_selected, ← selectedMsgs_nil_iff]
  by_cases hsel : selectedMsgs full = []
  · rw [if_pos hsel]
    simp [hsel]
  · rw [if_neg hsel]
    constructor
    · intro h
      exact absurd (h ▸ List.mem_cons_self placeholderMsg [])
        (placeholder_not_mem_selected full)
    · intro h
      exact absurd h hsel

/-! ### Claim C10: the external-link rule is case-sensitive -/

/-- C10: the external-link message is emitted exactly when the regex
http[s]?:// matches the ORIGINAL-case combined text (rule 5 searches
full_email, not text_lower), so an input whose only link marker is
upper-case, such as HTTP://X.COM VERIFY, gets no external-link warning
even though its lower-cased form contains http://, while the Latin
keyword rules (here: verify) still match case-insensitively. -/
theorem rule5_original_case_only :
    (∀ full : List Char, w5 ∈ warningSigns full ↔ rule5 full = true) ∧
    rule5 "HTTP://X.COM VERIFY".toList = false ∧
    hasSub "http://".toList (lowerList "HTTP://X.COM VERIFY".toList) = true ∧
    warningSigns "HTTP://X.COM VERIFY".toList = [w1] :=
  ⟨w5_mem_warningSigns_iff, by decide, by decide, by decide⟩

/-! ### Claim C6: fallback mode fixes the warning-sign field -/

/-- C6: every request answered in fallback mode (no classifier loaded,
the classifier raised, or its probability list was empty) carries exactly
the single fixed keyword-analysis message in warning_signs, and this
message is never produced by the seven-rule extractor. -/
theorem fallback_warning_signs_fixed (m : Option Classifier) (s b : List Char)
    (h : ¬(s = [] ∧ b = []))
    (hf : m = none ∨ ∃ clf, m = some clf ∧
      (clf (preprocess (s ++ ' ' :: b)) = none ∨
       ∃ pr, clf (preprocess (s ++ ' ' :: b)) = some (pr, []))) :
    analyze_email m s b = .ok (fallbackResult (s ++ ' ' :: b)) ∧
    (fallbackResult (s ++ ' ' :: b)).warning_signs = [fallbackMsg] ∧
    ∀ t : List Char, fallbackMsg ∉ warningSigns t := by
  refine ⟨?_, rfl, fallbackMsg_not_mem_warningSigns⟩
  rcases hf with rfl | ⟨clf, rfl, hc | ⟨pr, hc⟩⟩
  · simp [analyze_email, h]
  · simp [analyze_email, h, hc]
  · simp [analyze_email, h, hc]

/-- C6 witness: the fallback theorem applied with no classifier loaded. -/
theorem fallback_warning_signs_fixed_witness :
    analyze_email none "x".toList [] =
      .ok (fallbackResult ("x".toList ++ ' ' :: [])) ∧
    (fallbackResult ("x".toList ++ ' ' :: [])).warning_signs = [fallbackMsg] ∧
    ∀ t : List Char, fallbackMsg ∉ warningSigns t :=
  fallback_warning_signs_fixed none "x".toList [] (by decide) (Or.inl rfl)

/-! ### Claim C2: classifier errors never propagate -/

/-- C2: when the classifier raises on a request with non-empty input, the
analyze operation still returns a result, and that result is the one the
Keyword Heuristic computes, with model_used = keyword-fallback. -/
theorem classifier_error_uses_fallback (clf : Classifier) (s b : List Char)
    (h : ¬(s = [] ∧ b = []))
    (he : clf (preprocess (s ++ ' ' :: b)) = none) :
    analyze_email (some clf) s b = .ok (fallbackResult (s ++ ' ' :: b)) ∧
    (fallbackResult (s ++ ' ' :: b)).model_used = ModelUsed.keywordFallback :=
  ⟨by simp [analyze_email, h, he], rfl⟩

/-- C2 witness: the theorem applied to a classifier that always raises. -/
theorem classifier_error_uses_fallback_witness :
    analyze_email (some (fun _ => none)) "a".toList [] =
      .ok (fallbackResult ("a".toList ++ ' ' :: [])) ∧
    (fallbackResult ("a".toList ++ ' ' :: [])).model_used =
      ModelUsed.keywordFallback :=
  classifier_error_uses_fallback (fun _ => none) "a".toList [] (by decide) rfl

/-! ### Model-path lemmas -/

theorem maxOf_mem (p : ℚ) (ps : List ℚ) : maxOf p ps ∈ p :: ps := by
  induction ps generalizing p with
  | nil => simp [maxOf]
  | cons q ps ih =>
    rw [maxOf, List.foldl_cons]
    have h := ih (max p q)
    rw [maxOf] at h
    rcases List.mem_cons.1 h with h | h
    · rw [h]
      rcases max_choice p q with hm | hm <;> simp [hm]
    · simp [h]

theorem le_maxOf (p : ℚ) (ps : List ℚ) : ∀ q ∈ p :: ps, q ≤ maxOf p ps := by
  induction ps generalizing p with
  | nil =>
    intro q hq
    rw [List.mem_singleton] at hq
    simp [maxOf, hq]
  | cons r ps ih =>
    intro q hq
    rw [maxOf, List.foldl_cons]
    have ih2 := ih (max p r)
    rcases List.mem_cons.1 hq with h | h
    · subst h
      exact le_trans (le_max_left q r)
        (by simpa [maxOf] using ih2 (max q r) (List.mem_cons_self _ _))
    · rcases List.mem_cons.1 h with h | h
      · subst h
        exact le_trans (le_max_right p q)
          (by simpa [maxOf] using ih2 (max p q) (List.mem_cons_self _ _))
      · simpa [maxOf] using ih2 q (List.mem_cons_of_mem _ h)

theorem mlBand_veryHigh_iff (x : ℚ) : mlBand x = Band.veryHigh ↔ 9 / 10 ≤ x := by
  unfold mlBand
  split_ifs <;> simp_all

theorem mlBand_high_iff (x : ℚ) :
    mlBand x = Band.high ↔ (3 / 4 ≤ x ∧ x < 9 / 10) := by
  unfold mlBand
  split_ifs <;> simp_all

theorem mlBand_medium_iff (x : ℚ) :
    mlBand x = Band.medium ↔ (3 / 5 ≤ x ∧ x < 3 / 4) := by
  unfold mlBand
  split_ifs <;> simp_all
  intro
  linarith

theorem mlBand_low_iff (x : ℚ) : mlBand x = Band.low ↔ x < 3 / 5 := by
  unfold mlBand
  split_ifs <;> simp_all <;> linarith

/-! ### Claim C4: model-path contract -/

/-- C4: when the classifier succeeds on a valid request, the returned
confidence score is the maximum per-class probability (an element of the
probability list bounding every element, regardless of which class it
belongs to); the band follows the fixed thresholds 0.90 / 0.75 / 0.60;
the reason embeds the numeric score; and model_used is the ML model. -/
theorem model_path_contract (clf : Classifier) (s b : List Char) (pred : ℤ)
    (p : ℚ) (ps : List ℚ)
    (h : ¬(s = [] ∧ b = []))
    (hc : clf (preprocess (s ++ ' ' :: b)) = some (pred, p :: ps)) :
    analyze_email (some clf) s b =
      .ok (mlResult (s ++ ' ' :: b) pred (maxOf p ps)) ∧
    maxOf p ps ∈ p :: ps ∧
    (∀ q ∈ p :: ps, q ≤ maxOf p ps) ∧
    ((mlResult (s ++ ' ' :: b) pred (maxOf p ps)).confidence = Band.veryHigh ↔
      9 / 10 ≤ maxOf p ps) ∧
    ((mlResult (s ++ ' ' :: b) pred (maxOf p ps)).confidence = Band.high ↔
      (3 / 4 ≤ maxOf p ps ∧ maxOf p ps < 9 / 10)) ∧
    ((mlResult (s ++ ' ' :: b) pred (maxOf p ps)).confidence = Band.medium ↔
      (3 / 5 ≤ maxOf p ps ∧ maxOf p ps < 3 / 4)) ∧
    ((mlResult (s ++ ' ' :: b) pred (maxOf p ps)).confidence = Band.low ↔
      maxOf p ps < 3 / 5) ∧
    (mlResult (s ++ ' ' :: b) pred (maxOf p ps)).reason =
      (if pred = 1 then Reason.mlPhishing (maxOf p ps)
       else Reason.mlSafe (maxOf p ps)) ∧
    (mlResult (s ++ ' ' :: b) pred (maxOf p ps)).model_used =
      ModelUsed.mlModel := by
  refine ⟨by simp [analyze_email, h, hc], maxOf_mem p ps, le_maxOf p ps,
    ?_, ?_, ?_, ?_, rfl, rfl⟩
  · exact mlBand_veryHigh_iff (maxOf p ps)
  · exact mlBand_high_iff (maxOf p ps)
  · exact mlBand_medium_iff (maxOf p ps)
  · exact mlBand_low_iff (maxOf p ps)

/-- C4 witness: the model-path theorem applied to a concrete classifier
returning probability 19/20, checking the returned record. -/
theorem model_path_contract_witness :
    analyze_email (some (fun _ => some (1, [(1 : ℚ) / 20, 19 / 20])))
        "a".toList [] =
      .ok (mlResult ("a".toList ++ ' ' :: []) 1 (maxOf ((1 : ℚ) / 20) [19 / 20])) :=
  (model_path_contract (fun _ => some (1, [(1 : ℚ) / 20, 19 / 20]))
    "a".toList [] 1 ((1 : ℚ) / 20) [19 / 20] (by decide) rfl).1

end Phish
